import Mathlib

/-!
# Verification of the mail-forwarder forwarding orchestrator

Shallow embedding of the forwarding orchestrator of `mail-forwarder`
(`src/main.rs`, `src/smtp_sender.rs`, `src/config.rs`) and proofs of the
specification claims about it.

The embedding models:
* `process_emails` (src/main.rs lines 125-199): the per-batch
  forward → delete → notify pipeline, as a pure function from the
  delete-after-forward flag, the outcome oracles of the external calls
  (`send_email` per message, the single batched `delete_emails` call),
  the number of configured notification handlers and the starting
  `seen_ids` set, to the resulting `seen_ids` set and the trace of
  external calls made.
* `send_email` (src/smtp_sender.rs lines 120-144): the byte string handed
  to the underlying SMTP mailer.
* `run_receiver_task` (src/main.rs lines 205-268): the per-account loop,
  both its tick timing and the shape of its event trace up to shutdown.
-/

namespace MailForwarder

/-- `traits::Email`: `{ id: String, content: Vec<u8> }`.  Bytes are modelled
as natural numbers (every value produced by the program is `< 256`). -/
structure Email where
  id : String
  content : List Nat
deriving DecidableEq, Repr

/-- One external call made by `process_emails`, in program order:
a `send_email` attempt for a message id together with its outcome, the single
batched `delete_emails` call with its id list and outcome, or a
`notify` call of the notification handler at a given index for a message id. -/
inductive Event where
  | send (id : String) (ok : Bool)
  | deleteBatch (ids : List String) (ok : Bool)
  | notify (handler : Nat) (id : String)
deriving DecidableEq, Repr

/-- `seen_ids: HashSet<String>` is modelled as a finite set of strings. -/
abbrev SeenSet := Finset String

/-- State after the first loop of `process_emails` (src/main.rs lines 130-158):
the updated `seen_ids`, the `to_delete` id list, the
`successfully_processed` email list, and the `send_email` call trace. -/
structure ForwardResult where
  seen : SeenSet
  toDelete : List String
  processed : List Email
  trace : List Event
deriving DecidableEq

/-- The first loop of `process_emails` (src/main.rs lines 130-158): for each
email in batch order, skip it if its id is already in `seen_ids`; otherwise
call `send_email` (outcome given by the oracle `sendOk`); on success insert
the id into `seen_ids` and push the id onto `to_delete` and the email onto
`successfully_processed`; on failure only log. -/
def forwardLoop (sendOk : Email → Bool) (seen : SeenSet) :
    List Email → ForwardResult
  | [] => ⟨seen, [], [], []⟩
  | e :: rest =>
    if e.id ∈ seen then
      forwardLoop sendOk seen rest
    else if sendOk e then
      let r := forwardLoop sendOk (insert e.id seen) rest
      ⟨r.seen, e.id :: r.toDelete, e :: r.processed, Event.send e.id true :: r.trace⟩
    else
      let r := forwardLoop sendOk seen rest
      ⟨r.seen, r.toDelete, r.processed, Event.send e.id false :: r.trace⟩

/-- The notification loop of `process_emails` (src/main.rs lines 189-198):
for each notification-eligible email in order, every configured handler is
invoked in list order (a handler failure is only logged, so outcomes do not
affect the call trace).  Handlers are identified by their index
`0, …, numHandlers - 1` in the configured list. -/
def notifyEvents (numHandlers : Nat) : List Email → List Event
  | [] => []
  | e :: rest =>
      ((List.range numHandlers).map fun i => Event.notify i e.id)
        ++ notifyEvents numHandlers rest

/-- Result of one `process_emails` call: the final `seen_ids` set and the
trace of external calls, in program order. -/
structure ProcessResult where
  seen : SeenSet
  trace : List Event
deriving DecidableEq

/-- `process_emails` (src/main.rs lines 125-199).  After the forward loop:
if `delete_after_forward` is set and `to_delete` is nonempty, one batched
`delete_emails` call is issued (outcome given by `deleteOk`); on its success
every deleted id is removed from `seen_ids` and the successfully processed
emails become notification-eligible; on its failure nothing is notified and
`seen_ids` is left as the forward loop produced it.  If deletion is not
configured (or `to_delete` is empty) all successfully forwarded emails are
notification-eligible directly. -/
def process_emails (deleteAfterForward : Bool) (sendOk : Email → Bool)
    (deleteOk : Bool) (numHandlers : Nat) (seen : SeenSet)
    (emails : List Email) : ProcessResult :=
  let r := forwardLoop sendOk seen emails
  if deleteAfterForward && !r.toDelete.isEmpty then
    if deleteOk then
      ⟨r.toDelete.foldl (fun s id => s.erase id) r.seen,
        r.trace ++ [Event.deleteBatch r.toDelete true]
          ++ notifyEvents numHandlers r.processed⟩
    else
      ⟨r.seen, r.trace ++ [Event.deleteBatch r.toDelete false]⟩
  else
    ⟨r.seen, r.trace ++ notifyEvents numHandlers r.processed⟩

/-! ## `send_email` byte assembly (src/smtp_sender.rs lines 120-144) -/

/-- UTF-8 bytes of a string, as natural numbers (Rust `str::as_bytes`). -/
def utf8Bytes (s : String) : List Nat :=
  s.toUTF8.toList.map fun b => b.toNat

/-- The byte string `send_email` hands to the underlying mailer
(`mailer.send(envelope, &final_content)`): the fixed forwarder marker line,
an `X-Original-Message-ID` line carrying the email id, an `X-Forwarded-Time`
line carrying the current timestamp (passed in here as `nowBytes`, the
RFC 3339 rendering of the wall clock), then the original content.  Each
`extend_from_slice` of the source is one appended segment, in order. -/
def send_email_bytes (nowBytes : List Nat) (email : Email) : List Nat :=
  utf8Bytes "X-Forwarded-By: mail-forwarder\r\n"
    ++ utf8Bytes "X-Original-Message-ID: "
    ++ utf8Bytes email.id
    ++ utf8Bytes "\r\n"
    ++ utf8Bytes "X-Forwarded-Time: "
    ++ nowBytes
    ++ utf8Bytes "\r\n"
    ++ email.content

/-! ## `run_receiver_task` (src/main.rs lines 205-268) -/

/-- `DEFAULT_CHECK_INTERVAL_SECONDS` (src/config.rs line 64). -/
def DEFAULT_CHECK_INTERVAL_SECONDS : Nat := 300

/-- The effective poll interval computed at src/main.rs lines 214-217:
`receiver_config.check_interval_seconds.unwrap_or(DEFAULT_CHECK_INTERVAL_SECONDS).max(10)`.
`check_interval_seconds` is `Option<u64>`; no arithmetic is performed beyond
`max`, so plain naturals are a faithful model. -/
def effective_interval_seconds (check_interval_seconds : Option Nat) : Nat :=
  (check_interval_seconds.getD DEFAULT_CHECK_INTERVAL_SECONDS).max 10

/-- `tokio::time::interval(period)` semantics: the tick of index `n`
(0-based) completes `n` whole periods after the interval is created — in
particular tick 0 completes immediately. -/
def intervalTickCompletion (periodSeconds n : Nat) : Nat := periodSeconds * n

/-- `run_receiver_task` awaits one tick before entering its loop
(`ticker.tick().await;`, src/main.rs line 239), consuming the interval's
immediate tick 0; loop iteration `k` (0-based) therefore proceeds past its
`select!` wait point when tick `k + 1` completes. -/
def loopWaitTickIndex (k : Nat) : Nat := k + 1

/-- The time (seconds after the ticker is created) at which loop iteration
`k` of `run_receiver_task` passes its wait point and calls `fetch_emails`. -/
def fetchStartTime (periodSeconds k : Nat) : Nat :=
  intervalTickCompletion periodSeconds (loopWaitTickIndex k)

/-- Observable event of one `run_receiver_task` loop: a cycle's
`fetch_emails` call at iteration `k`, the completed processing of one batch
message during iteration `k`, or the task stopping after the shutdown
branch of the `select!` wins. -/
inductive LoopEvent where
  | fetchCall (k : Nat)
  | processMsg (k : Nat) (id : String)
  | stopped
deriving DecidableEq, Repr

/-- The events of one loop iteration body after the wait point
(src/main.rs lines 250-266): the `fetch_emails` call, then — when the fetch
succeeds with a batch — the processing of every message of that batch, run
to completion with no intervening shutdown check.  A fetch error is only
logged and produces no processing. -/
def cycleEvents (k : Nat) : Option (List Email) → List LoopEvent
  | none => [LoopEvent.fetchCall k]
  | some batch => LoopEvent.fetchCall k :: batch.map fun e => LoopEvent.processMsg k e.id

/-- The loop of `run_receiver_task` (src/main.rs lines 241-267).  At the wait
point of iteration `k` the `select!` races the shutdown receiver against the
ticker; `shutdownWins k` tells which branch wins.  If shutdown wins the loop
breaks at once; otherwise the whole iteration body runs (fetch outcome given
by `fetchResult k`) and the loop continues.  `fuel` bounds the number of
iterations modelled (the real loop is unbounded). -/
def runReceiverLoop (shutdownWins : Nat → Bool)
    (fetchResult : Nat → Option (List Email)) :
    Nat → Nat → List LoopEvent
  | 0, _ => []
  | fuel + 1, k =>
    if shutdownWins k then [LoopEvent.stopped]
    else cycleEvents k (fetchResult k) ++ runReceiverLoop shutdownWins fetchResult fuel (k + 1)

/-- The events of `m` consecutive complete loop iterations starting at
iteration `k`: every iteration's fetch call followed by the processing of its
whole batch, with no shutdown in between. -/
def completedCycles (fetchResult : Nat → Option (List Email)) :
    Nat → Nat → List LoopEvent
  | _, 0 => []
  | k, m + 1 =>
    cycleEvents k (fetchResult k) ++ completedCycles fetchResult (k + 1) m

end MailForwarder

namespace MailForwarder

/-! ## Helper lemmas about the forward loop -/

theorem forwardLoop_seen_mono (sendOk : Email → Bool) :
    ∀ (emails : List Email) (seen : SeenSet),
      seen ⊆ (forwardLoop sendOk seen emails).seen := by
  intro emails
  induction emails with
  | nil => intro seen; simp [forwardLoop]
  | cons e rest ih =>
      intro seen
      by_cases hs : e.id ∈ seen
      · simpa [forwardLoop, hs] using ih seen
      · by_cases hok : sendOk e
        · simp only [forwardLoop, hs, hok, if_false, if_true]
          exact fun x hx => ih (insert e.id seen) (Finset.mem_insert_of_mem hx)
        · simpa [forwardLoop, hs, hok] using ih seen

theorem forwardLoop_toDelete_eq_map (sendOk : Email → Bool) :
    ∀ (emails : List Email) (seen : SeenSet),
      (forwardLoop sendOk seen emails).toDelete
        = (forwardLoop sendOk seen emails).processed.map Email.id := by
  intro emails
  induction emails with
  | nil => intro seen; simp [forwardLoop]
  | cons e rest ih =>
      intro seen
      by_cases hs : e.id ∈ seen
      · simpa [forwardLoop, hs] using ih seen
      · by_cases hok : sendOk e
        · simp [forwardLoop, hs, hok, ih]
        · simp [forwardLoop, hs, hok, ih]

theorem forwardLoop_toDelete_subset_seen (sendOk : Email → Bool) :
    ∀ (emails : List Email) (seen : SeenSet) (id : String),
      id ∈ (forwardLoop sendOk seen emails).toDelete →
        id ∈ (forwardLoop sendOk seen emails).seen := by
  intro emails
  induction emails with
  | nil => intro seen id h; simp [forwardLoop] at h
  | cons e rest ih =>
      intro seen id h
      by_cases hs : e.id ∈ seen
      · rw [forwardLoop, if_pos hs] at h ⊢
        exact ih seen id h
      · by_cases hok : sendOk e
        · rw [forwardLoop, if_neg hs, if_pos hok] at h ⊢
          rcases List.mem_cons.mp h with h | h
          · subst h
            exact forwardLoop_seen_mono sendOk rest (insert e.id seen)
              (Finset.mem_insert_self _ _)
          · exact ih (insert e.id seen) id h
        · rw [forwardLoop, if_neg hs, if_neg hok] at h ⊢
          exact ih seen id h

theorem forwardLoop_trace_shape (sendOk : Email → Bool) :
    ∀ (emails : List Email) (seen : SeenSet) (ev : Event),
      ev ∈ (forwardLoop sendOk seen emails).trace →
        ∃ id b, ev = Event.send id b := by
  intro emails
  induction emails with
  | nil => intro seen ev h; simp [forwardLoop] at h
  | cons e rest ih =>
      intro seen ev h
      by_cases hs : e.id ∈ seen
      · rw [forwardLoop, if_pos hs] at h
        exact ih seen ev h
      · by_cases hok : sendOk e
        · rw [forwardLoop, if_neg hs, if_pos hok] at h
          rcases List.mem_cons.mp h with h | h
          · exact ⟨e.id, true, h⟩
          · exact ih (insert e.id seen) ev h
        · rw [forwardLoop, if_neg hs, if_neg hok] at h
          rcases List.mem_cons.mp h with h | h
          · exact ⟨e.id, false, h⟩
          · exact ih seen ev h

theorem forwardLoop_processed_send (sendOk : Email → Bool) :
    ∀ (emails : List Email) (seen : SeenSet) (e : Email),
      e ∈ (forwardLoop sendOk seen emails).processed →
        Event.send e.id true ∈ (forwardLoop sendOk seen emails).trace := by
  intro emails
  induction emails with
  | nil => intro seen e h; simp [forwardLoop] at h
  | cons e0 rest ih =>
      intro seen e h
      by_cases hs : e0.id ∈ seen
      · rw [forwardLoop, if_pos hs] at h ⊢
        exact ih seen e h
      · by_cases hok : sendOk e0
        · rw [forwardLoop, if_neg hs, if_pos hok] at h ⊢
          rcases List.mem_cons.mp h with h | h
          · subst h; exact List.mem_cons_self _ _
          · exact List.mem_cons_of_mem _ (ih (insert e0.id seen) e h)
        · rw [forwardLoop, if_neg hs, if_neg hok] at h ⊢
          exact List.mem_cons_of_mem _ (ih seen e h)

theorem forwardLoop_processed_subset (sendOk : Email → Bool) :
    ∀ (emails : List Email) (seen : SeenSet) (e : Email),
      e ∈ (forwardLoop sendOk seen emails).processed → e ∈ emails := by
  intro emails
  induction emails with
  | nil => intro seen e h; simp [forwardLoop] at h
  | cons e0 rest ih =>
      intro seen e h
      by_cases hs : e0.id ∈ seen
      · rw [forwardLoop, if_pos hs] at h
        exact List.mem_cons_of_mem _ (ih seen e h)
      · by_cases hok : sendOk e0
        · rw [forwardLoop, if_neg hs, if_pos hok] at h
          rcases List.mem_cons.mp h with h | h
          · exact h ▸ List.mem_cons_self _ _
          · exact List.mem_cons_of_mem _ (ih (insert e0.id seen) e h)
        · rw [forwardLoop, if_neg hs, if_neg hok] at h
          exact List.mem_cons_of_mem _ (ih seen e h)

theorem forwardLoop_toDelete_success (sendOk : Email → Bool) :
    ∀ (emails : List Email) (seen : SeenSet) (id : String),
      id ∈ (forwardLoop sendOk seen emails).toDelete →
        ∃ e ∈ emails, e.id = id ∧ sendOk e = true := by
  intro emails
  induction emails with
  | nil => intro seen id h; simp [forwardLoop] at h
  | cons e0 rest ih =>
      intro seen id h
      by_cases hs : e0.id ∈ seen
      · rw [forwardLoop, if_pos hs] at h
        obtain ⟨e, he, hid, hok⟩ := ih seen id h
        exact ⟨e, List.mem_cons_of_mem _ he, hid, hok⟩
      · by_cases hok : sendOk e0
        · rw [forwardLoop, if_neg hs, if_pos hok] at h
          rcases List.mem_cons.mp h with h | h
          · exact ⟨e0, List.mem_cons_self _ _, h.symm, hok⟩
          · obtain ⟨e, he, hid, hok2⟩ := ih (insert e0.id seen) id h
            exact ⟨e, List.mem_cons_of_mem _ he, hid, hok2⟩
        · rw [forwardLoop, if_neg hs, if_neg hok] at h
          obtain ⟨e, he, hid, hok2⟩ := ih seen id h
          exact ⟨e, List.mem_cons_of_mem _ he, hid, hok2⟩

theorem forwardLoop_skip_all (sendOk : Email → Bool) :
    ∀ (emails : List Email) (seen : SeenSet),
      (∀ e ∈ emails, e.id ∈ seen) →
        forwardLoop sendOk seen emails = ⟨seen, [], [], []⟩ := by
  intro emails
  induction emails with
  | nil => intro seen _; simp [forwardLoop]
  | cons e rest ih =>
      intro seen h
      have hs : e.id ∈ seen := h e (List.mem_cons_self _ _)
      rw [forwardLoop, if_pos hs]
      exact ih seen fun x hx => h x (List.mem_cons_of_mem _ hx)

theorem notifyEvents_mem (numHandlers : Nat) :
    ∀ (ps : List Email) (i : Nat) (id : String),
      Event.notify i id ∈ notifyEvents numHandlers ps →
        i < numHandlers ∧ ∃ e ∈ ps, e.id = id := by
  intro ps
  induction ps with
  | nil => intro i id h; simp [notifyEvents] at h
  | cons e rest ih =>
      intro i id h
      rw [notifyEvents, List.mem_append] at h
      rcases h with h | h
      · obtain ⟨j, hj, hev⟩ := List.mem_map.mp h
        obtain ⟨hji, hid⟩ := Event.notify.inj hev
        refine ⟨hji ▸ List.mem_range.mp hj, e, List.mem_cons_self _ _, hid⟩
      · obtain ⟨hi, e2, he2, hid⟩ := ih i id h
        exact ⟨hi, e2, List.mem_cons_of_mem _ he2, hid⟩

theorem forwardLoop_seen_eq (sendOk : Email → Bool) :
    ∀ (emails : List Email) (seen : SeenSet),
      (forwardLoop sendOk seen emails).seen
        = seen ∪ (forwardLoop sendOk seen emails).toDelete.toFinset := by
  intro emails
  induction emails with
  | nil => intro seen; simp [forwardLoop]
  | cons e rest ih =>
      intro seen
      by_cases hs : e.id ∈ seen
      · rw [forwardLoop, if_pos hs]
        exact ih seen
      · by_cases hok : sendOk e
        · rw [forwardLoop, if_neg hs, if_pos hok]
          simp only [List.toFinset_cons]
          rw [ih (insert e.id seen)]
          ext x
          simp only [Finset.mem_union, Finset.mem_insert, List.mem_toFinset]
          tauto
        · rw [forwardLoop, if_neg hs, if_neg hok]
          exact ih seen

theorem forwardLoop_no_send_of_seen (sendOk : Email → Bool) :
    ∀ (emails : List Email) (seen : SeenSet) (id : String) (b : Bool),
      id ∈ seen → Event.send id b ∉ (forwardLoop sendOk seen emails).trace := by
  intro emails
  induction emails with
  | nil => intro seen id b _ h; simp [forwardLoop] at h
  | cons e rest ih =>
      intro seen id b hid h
      by_cases hs : e.id ∈ seen
      · rw [forwardLoop, if_pos hs] at h
        exact ih seen id b hid h
      · have hide : e.id ≠ id := fun hEq => hs (hEq ▸ hid)
        by_cases hok : sendOk e
        · rw [forwardLoop, if_neg hs, if_pos hok] at h
          rcases List.mem_cons.mp h with h | h
          · exact hide (Event.send.inj h.symm).1
          · exact ih (insert e.id seen) id b (Finset.mem_insert_of_mem hid) h
        · rw [forwardLoop, if_neg hs, if_neg hok] at h
          rcases List.mem_cons.mp h with h | h
          · exact hide (Event.send.inj h.symm).1
          · exact ih seen id b hid h

theorem forwardLoop_count_send_le_one (sendOk : Email → Bool) :
    ∀ (emails : List Email) (seen : SeenSet) (id : String),
      (forwardLoop sendOk seen emails).trace.count (Event.send id true) ≤ 1 := by
  intro emails
  induction emails with
  | nil => intro seen id; simp [forwardLoop]
  | cons e rest ih =>
      intro seen id
      by_cases hs : e.id ∈ seen
      · rw [forwardLoop, if_pos hs]
        exact ih seen id
      · by_cases hok : sendOk e
        · rw [forwardLoop, if_neg hs, if_pos hok]
          by_cases hid : e.id = id
          · subst hid
            have hmem : Event.send e.id true
                ∉ (forwardLoop sendOk (insert e.id seen) rest).trace :=
              forwardLoop_no_send_of_seen sendOk rest (insert e.id seen) e.id true
                (Finset.mem_insert_self _ _)
            simp [List.count_cons, List.count_eq_zero.mpr hmem]
          · have : (Event.send e.id true == Event.send id true) = false := by
              simp [hid]
            simp only [ForwardResult.trace, List.count_cons, this]
            simpa using ih (insert e.id seen) id
        · rw [forwardLoop, if_neg hs, if_neg hok]
          have : (Event.send e.id false == Event.send id true) = false := by simp
          simp only [ForwardResult.trace, List.count_cons, this]
          simpa using ih seen id

theorem foldl_erase_mem :
    ∀ (l : List String) (s : SeenSet) (id : String),
      (id ∈ l.foldl (fun s id => s.erase id) s) ↔ (id ∈ s ∧ id ∉ l) := by
  intro l
  induction l with
  | nil => intro s id; simp
  | cons a l ih =>
      intro s id
      rw [List.foldl_cons, ih]
      constructor
      · rintro ⟨hmem, hnl⟩
        rcases Finset.mem_erase.mp hmem with ⟨hna, hs⟩
        exact ⟨hs, by simp [hna, hnl]⟩
      · rintro ⟨hs, hnl⟩
        have hna : id ≠ a := fun h => hnl (h ▸ List.mem_cons_self _ _)
        exact ⟨Finset.mem_erase.mpr ⟨hna, hs⟩,
          fun h => hnl (List.mem_cons_of_mem _ h)⟩

theorem count_notify_map_range (n i : Nat) (id id2 : String) :
    (((List.range n).map fun j => Event.notify j id2).count (Event.notify i id))
      = if i < n ∧ id2 = id then 1 else 0 := by
  by_cases h : i < n ∧ id2 = id
  · rw [if_pos h]
    apply List.count_eq_one_of_mem
    · refine List.Nodup.map ?_ (List.nodup_range n)
      intro a b hab
      exact (Event.notify.inj hab).1
    · exact List.mem_map.mpr ⟨i, List.mem_range.mpr h.1, by rw [h.2]⟩
  · rw [if_neg h]
    refine List.count_eq_zero.mpr ?_
    intro hmem
    obtain ⟨j, hj, hev⟩ := List.mem_map.mp hmem
    obtain ⟨hji, hid⟩ := Event.notify.inj hev
    exact h ⟨hji ▸ List.mem_range.mp hj, hid⟩

theorem notifyEvents_count (n i : Nat) (hi : i < n) (id : String) :
    ∀ ps : List Email,
      ((notifyEvents n ps).count (Event.notify i id))
        = ps.countP fun e => e.id == id := by
  intro ps
  induction ps with
  | nil => simp [notifyEvents]
  | cons e rest ih =>
      rw [notifyEvents, List.count_append, ih, count_notify_map_range,
        List.countP_cons]
      by_cases hid : e.id = id
      · simp [hid, hi, Nat.add_comm]
      · simp [hid, hi]

theorem notifyEvents_shape (n : Nat) :
    ∀ (ps : List Email) (ev : Event), ev ∈ notifyEvents n ps →
      ∃ i id, ev = Event.notify i id := by
  intro ps
  induction ps with
  | nil => intro ev h; simp [notifyEvents] at h
  | cons e rest ih =>
      intro ev h
      rw [notifyEvents, List.mem_append] at h
      rcases h with h | h
      · obtain ⟨j, _, hev⟩ := List.mem_map.mp h
        exact ⟨j, e.id, hev.symm⟩
      · exact ih ev h

theorem notify_not_mem_forward_trace (sendOk : Email → Bool)
    (emails : List Email) (seen : SeenSet) (i : Nat) (id : String) :
    Event.notify i id ∉ (forwardLoop sendOk seen emails).trace := by
  intro h
  obtain ⟨_, _, heq⟩ := forwardLoop_trace_shape sendOk emails seen _ h
  cases heq

theorem deleteBatch_not_mem_forward_trace (sendOk : Email → Bool)
    (emails : List Email) (seen : SeenSet) (ids : List String) (b : Bool) :
    Event.deleteBatch ids b ∉ (forwardLoop sendOk seen emails).trace := by
  intro h
  obtain ⟨_, _, heq⟩ := forwardLoop_trace_shape sendOk emails seen _ h
  cases heq

theorem send_not_mem_notifyEvents (n : Nat) (ps : List Email)
    (id : String) (b : Bool) :
    Event.send id b ∉ notifyEvents n ps := by
  intro h
  obtain ⟨_, _, heq⟩ := notifyEvents_shape n ps _ h
  cases heq

theorem deleteBatch_not_mem_notifyEvents (n : Nat) (ps : List Email)
    (ids : List String) (b : Bool) :
    Event.deleteBatch ids b ∉ notifyEvents n ps := by
  intro h
  obtain ⟨_, _, heq⟩ := notifyEvents_shape n ps _ h
  cases heq

/-- Branch trichotomy of `process_emails`: either the delete branch was taken
and succeeded, or it was taken and failed, or it was not taken at all
(deletion not configured, or nothing to delete). -/
theorem process_emails_cases (dAF : Bool) (sendOk : Email → Bool)
    (deleteOk : Bool) (n : Nat) (seen : SeenSet) (emails : List Email) :
    (process_emails dAF sendOk deleteOk n seen emails
        = ⟨(forwardLoop sendOk seen emails).toDelete.foldl
              (fun s id => s.erase id) (forwardLoop sendOk seen emails).seen,
            (forwardLoop sendOk seen emails).trace
              ++ [Event.deleteBatch (forwardLoop sendOk seen emails).toDelete true]
              ++ notifyEvents n (forwardLoop sendOk seen emails).processed⟩
      ∧ dAF = true ∧ deleteOk = true
      ∧ (forwardLoop sendOk seen emails).toDelete ≠ [])
    ∨ (process_emails dAF sendOk deleteOk n seen emails
        = ⟨(forwardLoop sendOk seen emails).seen,
            (forwardLoop sendOk seen emails).trace
              ++ [Event.deleteBatch (forwardLoop sendOk seen emails).toDelete false]⟩
      ∧ dAF = true ∧ deleteOk = false
      ∧ (forwardLoop sendOk seen emails).toDelete ≠ [])
    ∨ (process_emails dAF sendOk deleteOk n seen emails
        = ⟨(forwardLoop sendOk seen emails).seen,
            (forwardLoop sendOk seen emails).trace
              ++ notifyEvents n (forwardLoop sendOk seen emails).processed⟩
      ∧ (dAF = false ∨ (forwardLoop sendOk seen emails).toDelete = [])) := by
  by_cases hd : (forwardLoop sendOk seen emails).toDelete = []
  · refine Or.inr (Or.inr ⟨?_, Or.inr hd⟩)
    simp [process_emails, hd]
  · cases hdaf : dAF with
    | false =>
        refine Or.inr (Or.inr ⟨?_, Or.inl rfl⟩)
        simp [process_emails]
    | true =>
        cases hdel : deleteOk with
        | true =>
            refine Or.inl ⟨?_, rfl, rfl, hd⟩
            simp [process_emails, hd]
        | false =>
            refine Or.inr (Or.inl ⟨?_, rfl, rfl, hd⟩)
            simp [process_emails, hd]

/-! ## Claims -/

/-- C9: for every configured `check_interval_seconds` value `v`, the polling
interval used by `run_receiver_task` equals `max v 10` seconds; when no value
is configured the default of 300 seconds is used, which is already above the
10-second floor. -/
theorem c9_effective_interval_floor :
    (∀ v : Nat, effective_interval_seconds (some v) = Nat.max v 10)
    ∧ effective_interval_seconds none = 300
    ∧ 10 ≤ effective_interval_seconds none :=
  ⟨fun _ => rfl, rfl, by decide⟩

/-- C6: for every email and timestamp, the byte sequence `send_email` hands to
the underlying mailer is exactly three prepended header lines — the fixed
forwarder marker, an `X-Original-Message-ID` line carrying the email's id,
and an `X-Forwarded-Time` line — followed by the original email content
unchanged, so the original content is a suffix of the sent bytes. -/
theorem c6_send_email_prepends_three_headers (nowBytes : List Nat) (email : Email) :
    send_email_bytes nowBytes email
      = (utf8Bytes "X-Forwarded-By: mail-forwarder\r\n"
          ++ (utf8Bytes "X-Original-Message-ID: " ++ utf8Bytes email.id
                ++ utf8Bytes "\r\n")
          ++ (utf8Bytes "X-Forwarded-Time: " ++ nowBytes ++ utf8Bytes "\r\n"))
        ++ email.content
    ∧ List.IsSuffix email.content (send_email_bytes nowBytes email) := by
  constructor
  · simp [send_email_bytes, List.append_assoc]
  · exact ⟨utf8Bytes "X-Forwarded-By: mail-forwarder\r\n"
        ++ utf8Bytes "X-Original-Message-ID: " ++ utf8Bytes email.id
        ++ utf8Bytes "\r\n" ++ utf8Bytes "X-Forwarded-Time: " ++ nowBytes
        ++ utf8Bytes "\r\n",
      by simp [send_email_bytes, List.append_assoc]⟩

/-- C7 counterexample: with the minimum effective interval of 10 seconds, the
first `fetch_emails` call of `run_receiver_task` happens 10 seconds after
startup, not at time zero — the `ticker.tick().await` before the loop
consumes the interval's immediate first tick, so the wait point of the first
loop iteration only completes at the second tick, one full interval in. -/
theorem c7_counterexample_first_fetch_delayed :
    fetchStartTime 10 0 = 10 ∧ fetchStartTime 10 0 ≠ 0 := by decide

/-- C7 (amended): the `fetch_emails` call of loop iteration `k` of
`run_receiver_task` happens `(k + 1)` effective intervals after startup; in
particular the first fetch happens only after one full polling interval has
passed, not immediately. -/
theorem c7_amended_first_fetch_after_one_interval (periodSeconds k : Nat) :
    fetchStartTime periodSeconds k = periodSeconds * (k + 1)
      ∧ fetchStartTime periodSeconds 0 = periodSeconds := by
  constructor
  · rfl
  · simp [fetchStartTime, intervalTickCompletion, loopWaitTickIndex]

/-- C4: on a batch all of whose message ids are already in the `seen_ids` set,
`process_emails` makes zero `send_email`, `delete_emails` and `notify` calls
(its call trace is empty) and leaves the set unchanged. -/
theorem c4_all_seen_is_noop (dAF : Bool) (sendOk : Email → Bool)
    (deleteOk : Bool) (n : Nat) (seen : SeenSet) (emails : List Email)
    (h : ∀ e ∈ emails, e.id ∈ seen) :
    process_emails dAF sendOk deleteOk n seen emails = ⟨seen, []⟩ := by
  have hr := forwardLoop_skip_all sendOk emails seen h
  simp [process_emails, hr, notifyEvents]

theorem c4_all_seen_is_noop_witness :
    (∀ e ∈ [(⟨"a", [65]⟩ : Email)], e.id ∈ ({"a"} : SeenSet))
    ∧ process_emails true (fun _ => true) true 1 {"a"} [⟨"a", [65]⟩]
        = ⟨{"a"}, []⟩ :=
  ⟨by decide, c4_all_seen_is_noop true (fun _ => true) true 1 {"a"}
    [⟨"a", [65]⟩] (by decide)⟩

/-- C10: within a single batch, `process_emails` successfully forwards each
distinct message id at most once, even when the batch contains several
messages with the same id: the call trace contains at most one successful
`send_email` event per id. -/
theorem c10_successful_forward_at_most_once_per_id (dAF : Bool)
    (sendOk : Email → Bool) (deleteOk : Bool) (n : Nat) (seen : SeenSet)
    (emails : List Email) (id : String) :
    (process_emails dAF sendOk deleteOk n seen emails).trace.count
      (Event.send id true) ≤ 1 := by
  have hbound := forwardLoop_count_send_le_one sendOk emails seen id
  rcases process_emails_cases dAF sendOk deleteOk n seen emails with
    ⟨heq, _⟩ | ⟨heq, _⟩ | ⟨heq, _⟩ <;> rw [heq]
  · rw [List.count_append, List.count_append]
    have h2 : List.count (Event.send id true)
        [Event.deleteBatch (forwardLoop sendOk seen emails).toDelete true] = 0 := by
      simp
    have h3 : (notifyEvents n (forwardLoop sendOk seen emails).processed).count
        (Event.send id true) = 0 :=
      List.count_eq_zero.mpr (send_not_mem_notifyEvents n _ id true)
    omega
  · rw [List.count_append]
    have h2 : List.count (Event.send id true)
        [Event.deleteBatch (forwardLoop sendOk seen emails).toDelete false] = 0 := by
      simp
    omega
  · rw [List.count_append]
    have h3 : (notifyEvents n (forwardLoop sendOk seen emails).processed).count
        (Event.send id true) = 0 :=
      List.count_eq_zero.mpr (send_not_mem_notifyEvents n _ id true)
    omega

/-- C2: with delete-after-forward enabled, when the batched `delete_emails`
call returns an error, `process_emails` invokes no notification handler for
any message, and the `seen_ids` set is left exactly as the forward loop
produced it — in particular every id added during the batch (every delete
candidate) is still in the set afterwards. -/
theorem c2_delete_failure_no_notify_seen_kept (sendOk : Email → Bool)
    (n : Nat) (seen : SeenSet) (emails : List Email) :
    (∀ i id, Event.notify i id
        ∉ (process_emails true sendOk false n seen emails).trace)
    ∧ (process_emails true sendOk false n seen emails).seen
        = (forwardLoop sendOk seen emails).seen
    ∧ ∀ id ∈ (forwardLoop sendOk seen emails).toDelete,
        id ∈ (process_emails true sendOk false n seen emails).seen := by
  rcases process_emails_cases true sendOk false n seen emails with
    ⟨_, _, hdel, _⟩ | ⟨heq, _⟩ | ⟨heq, hside⟩
  · cases hdel
  · refine ⟨?_, ?_, ?_⟩
    · intro i id h
      rw [heq] at h
      rcases List.mem_append.mp h with h | h
      · exact notify_not_mem_forward_trace sendOk emails seen i id h
      · cases List.mem_singleton.mp h
    · rw [heq]
    · intro id hid
      rw [heq]
      exact forwardLoop_toDelete_subset_seen sendOk emails seen id hid
  · rcases hside with hside | hside
    · cases hside
    · have hproc : (forwardLoop sendOk seen emails).processed = [] :=
        List.map_eq_nil_iff.mp (hside ▸ (forwardLoop_toDelete_eq_map sendOk emails seen).symm)
      refine ⟨?_, ?_, ?_⟩
      · intro i id h
        rw [heq] at h
        rcases List.mem_append.mp h with h | h
        · exact notify_not_mem_forward_trace sendOk emails seen i id h
        · rw [hproc] at h
          simp [notifyEvents] at h
      · rw [heq]
      · intro id hid
        rw [hside] at hid
        simp at hid

theorem c2_delete_failure_witness :
    (∀ i id, Event.notify i id
        ∉ (process_emails true (fun _ => true) false 1 ∅
            [(⟨"a", [65]⟩ : Email)]).trace)
    ∧ (process_emails true (fun _ => true) false 1 ∅ [(⟨"a", [65]⟩ : Email)]).seen
        = (forwardLoop (fun _ => true) ∅ [(⟨"a", [65]⟩ : Email)]).seen
    ∧ ∀ id ∈ (forwardLoop (fun _ => true) ∅ [(⟨"a", [65]⟩ : Email)]).toDelete,
        id ∈ (process_emails true (fun _ => true) false 1 ∅
            [(⟨"a", [65]⟩ : Email)]).seen :=
  c2_delete_failure_no_notify_seen_kept (fun _ => true) 1 ∅ [⟨"a", [65]⟩]

/-- C1: whenever `process_emails` passes a message to a notification handler,
the call trace splits so that a successful `send_email` for that message's id
occurred strictly earlier in the same call; and when delete-after-forward is
enabled, the batched `delete_emails` call of the batch also succeeded and
covered that id. -/
theorem c1_notify_implies_forward_and_delete_success (dAF : Bool)
    (sendOk : Email → Bool) (deleteOk : Bool) (n : Nat) (seen : SeenSet)
    (emails : List Email) (i : Nat) (id : String)
    (h : Event.notify i id
      ∈ (process_emails dAF sendOk deleteOk n seen emails).trace) :
    (∃ t1 t2,
        (process_emails dAF sendOk deleteOk n seen emails).trace = t1 ++ t2
        ∧ Event.send id true ∈ t1 ∧ Event.notify i id ∈ t2)
    ∧ (dAF = true →
        deleteOk = true
        ∧ ∃ ids, id ∈ ids
          ∧ Event.deleteBatch ids true
            ∈ (process_emails dAF sendOk deleteOk n seen emails).trace) := by
  rcases process_emails_cases dAF sendOk deleteOk n seen emails with
    ⟨heq, _, hdel, _⟩ | ⟨heq, _⟩ | ⟨heq, hside⟩
  · rw [heq] at h ⊢
    have hnotify : Event.notify i id
        ∈ notifyEvents n (forwardLoop sendOk seen emails).processed := by
      rcases List.mem_append.mp h with h | h
      · rcases List.mem_append.mp h with h | h
        · exact absurd h (notify_not_mem_forward_trace sendOk emails seen i id)
        · cases List.mem_singleton.mp h
      · exact h
    obtain ⟨_, e, he, hid⟩ := notifyEvents_mem n _ i id hnotify
    have hsend : Event.send id true ∈ (forwardLoop sendOk seen emails).trace :=
      hid ▸ forwardLoop_processed_send sendOk emails seen e he
    refine ⟨⟨(forwardLoop sendOk seen emails).trace
        ++ [Event.deleteBatch (forwardLoop sendOk seen emails).toDelete true],
      notifyEvents n (forwardLoop sendOk seen emails).processed,
      rfl, List.mem_append_left _ hsend, hnotify⟩, ?_⟩
    intro _
    refine ⟨hdel, (forwardLoop sendOk seen emails).toDelete, ?_, ?_⟩
    · rw [forwardLoop_toDelete_eq_map]
      exact hid ▸ List.mem_map_of_mem Email.id he
    · exact List.mem_append_left _ (List.mem_append_right _ (List.mem_singleton.mpr rfl))
  · rw [heq] at h
    rcases List.mem_append.mp h with h | h
    · exact absurd h (notify_not_mem_forward_trace sendOk emails seen i id)
    · cases List.mem_singleton.mp h
  · rw [heq] at h ⊢
    have hnotify : Event.notify i id
        ∈ notifyEvents n (forwardLoop sendOk seen emails).processed := by
      rcases List.mem_append.mp h with h | h
      · exact absurd h (notify_not_mem_forward_trace sendOk emails seen i id)
      · exact h
    obtain ⟨_, e, he, hid⟩ := notifyEvents_mem n _ i id hnotify
    have hsend : Event.send id true ∈ (forwardLoop sendOk seen emails).trace :=
      hid ▸ forwardLoop_processed_send sendOk emails seen e he
    refine ⟨⟨(forwardLoop sendOk seen emails).trace,
      notifyEvents n (forwardLoop sendOk seen emails).processed,
      rfl, hsend, hnotify⟩, ?_⟩
    intro hdaf
    rcases hside with hside | hside
    · rw [hdaf] at hside; cases hside
    · have hproc : (forwardLoop sendOk seen emails).processed = [] :=
        List.map_eq_nil_iff.mp
          (hside ▸ (forwardLoop_toDelete_eq_map sendOk emails seen).symm)
      rw [hproc] at he
      cases he

theorem c1_notify_implies_forward_witness :
    (Event.notify 0 "a"
      ∈ (process_emails true (fun _ => true) true 1 ∅
          [(⟨"a", [65]⟩ : Email)]).trace)
    ∧ ((∃ t1 t2,
          (process_emails true (fun _ => true) true 1 ∅
              [(⟨"a", [65]⟩ : Email)]).trace = t1 ++ t2
          ∧ Event.send "a" true ∈ t1 ∧ Event.notify 0 "a" ∈ t2)
        ∧ (true = true →
            true = true
            ∧ ∃ ids, "a" ∈ ids
              ∧ Event.deleteBatch ids true
                ∈ (process_emails true (fun _ => true) true 1 ∅
                    [(⟨"a", [65]⟩ : Email)]).trace)) :=
  ⟨by decide,
    c1_notify_implies_forward_and_delete_success true (fun _ => true) true 1 ∅
      [⟨"a", [65]⟩] 0 "a" (by decide)⟩

/-- C3: a message whose `send_email` call fails leaves all its state
untouched: its id's membership in `seen_ids` is unchanged, its id is not a
delete candidate, and no notification handler is invoked for it.  (Message
ids are the protocol-assigned unique identifiers of the data model, so the
batch carries no duplicate ids.)  In particular, on a batch of one message
whose delivery fails, `seen_ids` is left exactly as it was, no delete call
is issued and no notification happens. -/
theorem c3_send_failure_leaves_state (dAF : Bool) (sendOk : Email → Bool)
    (deleteOk : Bool) (n : Nat) (seen : SeenSet) (emails : List Email)
    (e : Email) (hnodup : (emails.map Email.id).Nodup) (he : e ∈ emails)
    (hfail : sendOk e = false) :
    ((e.id ∈ (process_emails dAF sendOk deleteOk n seen emails).seen
        ↔ e.id ∈ seen)
      ∧ e.id ∉ (forwardLoop sendOk seen emails).toDelete
      ∧ ∀ i, Event.notify i e.id
          ∉ (process_emails dAF sendOk deleteOk n seen emails).trace)
    ∧ (emails = [e] →
        (process_emails dAF sendOk deleteOk n seen emails).seen = seen
        ∧ (∀ ids b, Event.deleteBatch ids b
            ∉ (process_emails dAF sendOk deleteOk n seen emails).trace)
        ∧ ∀ i id, Event.notify i id
            ∉ (process_emails dAF sendOk deleteOk n seen emails).trace) := by
  have hnotdel : e.id ∉ (forwardLoop sendOk seen emails).toDelete := by
    intro hmem
    obtain ⟨e2, he2, hid, hok⟩ :=
      forwardLoop_toDelete_success sendOk emails seen e.id hmem
    have : e2 = e := List.inj_on_of_nodup_map hnodup he2 he hid
    rw [this, hfail] at hok
    cases hok
  have hseenr : e.id ∈ (forwardLoop sendOk seen emails).seen ↔ e.id ∈ seen := by
    rw [forwardLoop_seen_eq]
    simp only [Finset.mem_union, List.mem_toFinset]
    exact ⟨fun h => h.resolve_right hnotdel, Or.inl⟩
  have hnonotify : ∀ i, Event.notify i e.id
      ∉ (process_emails dAF sendOk deleteOk n seen emails).trace := by
    intro i hmem
    have hnotifyev : Event.notify i e.id
        ∈ notifyEvents n (forwardLoop sendOk seen emails).processed := by
      rcases process_emails_cases dAF sendOk deleteOk n seen emails with
        ⟨heq, _⟩ | ⟨heq, _⟩ | ⟨heq, _⟩ <;> rw [heq] at hmem
      · rcases List.mem_append.mp hmem with h | h
        · rcases List.mem_append.mp h with h | h
          · exact absurd h (notify_not_mem_forward_trace sendOk emails seen i e.id)
          · cases List.mem_singleton.mp h
        · exact h
      · rcases List.mem_append.mp hmem with h | h
        · exact absurd h (notify_not_mem_forward_trace sendOk emails seen i e.id)
        · cases List.mem_singleton.mp h
      · rcases List.mem_append.mp hmem with h | h
        · exact absurd h (notify_not_mem_forward_trace sendOk emails seen i e.id)
        · exact h
    obtain ⟨_, e2, he2, hid⟩ := notifyEvents_mem n _ i e.id hnotifyev
    have : e2.id ∈ (forwardLoop sendOk seen emails).toDelete := by
      rw [forwardLoop_toDelete_eq_map]
      exact List.mem_map_of_mem Email.id he2
    rw [hid] at this
    exact hnotdel this
  refine ⟨⟨?_, hnotdel, hnonotify⟩, ?_⟩
  · rcases process_emails_cases dAF sendOk deleteOk n seen emails with
      ⟨heq, _⟩ | ⟨heq, _⟩ | ⟨heq, _⟩ <;> rw [heq]
    · rw [ProcessResult.seen, foldl_erase_mem]
      constructor
      · exact fun h => hseenr.mp h.1
      · exact fun h => ⟨hseenr.mpr h, hnotdel⟩
    · exact hseenr
    · exact hseenr
  · intro heq
    subst heq
    have hr : forwardLoop sendOk seen [e] = ⟨seen, [], [], []⟩
        ∨ forwardLoop sendOk seen [e]
          = ⟨seen, [], [], [Event.send e.id false]⟩ := by
      by_cases hs : e.id ∈ seen
      · left; simp [forwardLoop, hs]
      · right; simp [forwardLoop, hs, hfail]
    rcases hr with hr | hr
    · refine ⟨?_, ?_, ?_⟩
      · simp [process_emails, hr, notifyEvents]
      · intro ids b hmem
        simp [process_emails, hr, notifyEvents] at hmem
      · intro i id hmem
        simp [process_emails, hr, notifyEvents] at hmem
    · refine ⟨?_, ?_, ?_⟩
      · simp [process_emails, hr, notifyEvents]
      · intro ids b hmem
        simp [process_emails, hr, notifyEvents] at hmem
      · intro i id hmem
        simp [process_emails, hr, notifyEvents] at hmem

theorem c3_send_failure_witness :
    ((([(⟨"a", [65]⟩ : Email)].map Email.id).Nodup)
      ∧ (⟨"a", [65]⟩ : Email) ∈ [(⟨"a", [65]⟩ : Email)]
      ∧ (fun _ => false) (⟨"a", [65]⟩ : Email) = false)
    ∧ ((((⟨"a", [65]⟩ : Email).id
          ∈ (process_emails true (fun _ => false) true 1 ∅
              [(⟨"a", [65]⟩ : Email)]).seen
          ↔ (⟨"a", [65]⟩ : Email).id ∈ (∅ : SeenSet))
        ∧ (⟨"a", [65]⟩ : Email).id
          ∉ (forwardLoop (fun _ => false) ∅ [(⟨"a", [65]⟩ : Email)]).toDelete
        ∧ ∀ i, Event.notify i (⟨"a", [65]⟩ : Email).id
            ∉ (process_emails true (fun _ => false) true 1 ∅
                [(⟨"a", [65]⟩ : Email)]).trace)
      ∧ ([(⟨"a", [65]⟩ : Email)] = [(⟨"a", [65]⟩ : Email)] →
          (process_emails true (fun _ => false) true 1 ∅
              [(⟨"a", [65]⟩ : Email)]).seen = ∅
          ∧ (∀ ids b, Event.deleteBatch ids b
              ∉ (process_emails true (fun _ => false) true 1 ∅
                  [(⟨"a", [65]⟩ : Email)]).trace)
          ∧ ∀ i id, Event.notify i id
              ∉ (process_emails true (fun _ => false) true 1 ∅
                  [(⟨"a", [65]⟩ : Email)]).trace)) :=
  ⟨⟨by decide, by decide, rfl⟩,
    c3_send_failure_leaves_state true (fun _ => false) true 1 ∅
      [⟨"a", [65]⟩] ⟨"a", [65]⟩ (by decide) (by decide) rfl⟩

/-- C5: on a batch of two unseen messages with distinct ids, with
delete-after-forward enabled and both `send_email` calls and the batched
`delete_emails` call succeeding, `process_emails` leaves `seen_ids` without
either id (each was inserted and then removed), and each message is passed
exactly once to every configured notification handler. -/
theorem c5_two_messages_delete_success (sendOk : Email → Bool) (n : Nat)
    (seen : SeenSet) (e1 e2 : Email) (hne : e1.id ≠ e2.id)
    (h1 : e1.id ∉ seen) (h2 : e2.id ∉ seen)
    (hs1 : sendOk e1 = true) (hs2 : sendOk e2 = true) :
    (e1.id ∉ (process_emails true sendOk true n seen [e1, e2]).seen
      ∧ e2.id ∉ (process_emails true sendOk true n seen [e1, e2]).seen)
    ∧ ∀ i, i < n →
        (process_emails true sendOk true n seen [e1, e2]).trace.count
            (Event.notify i e1.id) = 1
        ∧ (process_emails true sendOk true n seen [e1, e2]).trace.count
            (Event.notify i e2.id) = 1 := by
  have hne2 : e2.id ≠ e1.id := hne.symm
  have hr : forwardLoop sendOk seen [e1, e2]
      = ⟨insert e2.id (insert e1.id seen), [e1.id, e2.id], [e1, e2],
          [Event.send e1.id true, Event.send e2.id true]⟩ := by
    simp [forwardLoop, h1, h2, hs1, hs2, Finset.mem_insert, hne2]
  have hp : process_emails true sendOk true n seen [e1, e2]
      = ⟨[e1.id, e2.id].foldl (fun s id => s.erase id)
            (insert e2.id (insert e1.id seen)),
          [Event.send e1.id true, Event.send e2.id true]
            ++ [Event.deleteBatch [e1.id, e2.id] true]
            ++ notifyEvents n [e1, e2]⟩ := by
    simp [process_emails, hr]
  constructor
  · rw [hp]
    constructor
    · intro hmem
      exact ((foldl_erase_mem _ _ _).mp hmem).2 (List.mem_cons_self _ _)
    · intro hmem
      exact ((foldl_erase_mem _ _ _).mp hmem).2
        (List.mem_cons_of_mem _ (List.mem_singleton.mpr rfl))
  · intro i hi
    have hcount : ∀ id : String,
        (notifyEvents n [e1, e2]).count (Event.notify i id)
          = [e1, e2].countP fun e => e.id == id :=
      fun id => notifyEvents_count n i hi id [e1, e2]
    rw [hp]
    constructor
    · rw [List.count_append, List.count_append, hcount e1.id]
      have hz1 : List.count (Event.notify i e1.id)
          [Event.send e1.id true, Event.send e2.id true] = 0 := by simp
      have hz2 : List.count (Event.notify i e1.id)
          [Event.deleteBatch [e1.id, e2.id] true] = 0 := by simp
      have hcp : [e1, e2].countP (fun e => e.id == e1.id) = 1 := by
        simp [List.countP_cons, hne2]
      omega
    · rw [List.count_append, List.count_append, hcount e2.id]
      have hz1 : List.count (Event.notify i e2.id)
          [Event.send e1.id true, Event.send e2.id true] = 0 := by simp
      have hz2 : List.count (Event.notify i e2.id)
          [Event.deleteBatch [e1.id, e2.id] true] = 0 := by simp
      have hcp : [e1, e2].countP (fun e => e.id == e2.id) = 1 := by
        simp [List.countP_cons, hne]
      omega

theorem c5_two_messages_witness :
    ((("a" : String) ≠ "b"
      ∧ ("a" : String) ∉ (∅ : SeenSet) ∧ ("b" : String) ∉ (∅ : SeenSet)
      ∧ (fun _ => true) (⟨"a", [65]⟩ : Email) = true
      ∧ (fun _ => true) (⟨"b", [66]⟩ : Email) = true)
    ∧ ((("a" : String) ∉ (process_emails true (fun _ => true) true 1 ∅
            [(⟨"a", [65]⟩ : Email), ⟨"b", [66]⟩]).seen
        ∧ ("b" : String) ∉ (process_emails true (fun _ => true) true 1 ∅
            [(⟨"a", [65]⟩ : Email), ⟨"b", [66]⟩]).seen)
      ∧ ∀ i, i < 1 →
          (process_emails true (fun _ => true) true 1 ∅
              [(⟨"a", [65]⟩ : Email), ⟨"b", [66]⟩]).trace.count
            (Event.notify i "a") = 1
          ∧ (process_emails true (fun _ => true) true 1 ∅
              [(⟨"a", [65]⟩ : Email), ⟨"b", [66]⟩]).trace.count
            (Event.notify i "b") = 1)) :=
  ⟨⟨by decide, by decide, by decide, rfl, rfl⟩,
    c5_two_messages_delete_success (fun _ => true) 1 ∅ ⟨"a", [65]⟩ ⟨"b", [66]⟩
      (by decide) (by decide) (by decide) rfl rfl⟩

theorem runReceiverLoop_complete (shutdownWins : Nat → Bool)
    (fetchResult : Nat → Option (List Email)) :
    ∀ (m fuel k : Nat), (∀ j, j < m → shutdownWins (k + j) = false) →
      shutdownWins (k + m) = true → m < fuel →
      runReceiverLoop shutdownWins fetchResult fuel k
        = completedCycles fetchResult k m ++ [LoopEvent.stopped] := by
  intro m
  induction m with
  | zero =>
      intro fuel k _ hfire hfuel
      obtain ⟨f, rfl⟩ : ∃ f, fuel = f + 1 := ⟨fuel - 1, by omega⟩
      rw [runReceiverLoop, if_pos (by simpa using hfire)]
      simp [completedCycles]
  | succ m ih =>
      intro fuel k hbefore hfire hfuel
      obtain ⟨f, rfl⟩ : ∃ f, fuel = f + 1 := ⟨fuel - 1, by omega⟩
      have h0 : shutdownWins k = false := by
        simpa using hbefore 0 (Nat.succ_pos m)
      rw [runReceiverLoop, if_neg (by simp [h0])]
      have hb : ∀ j, j < m → shutdownWins (k + 1 + j) = false := by
        intro j hj
        have := hbefore (j + 1) (by omega)
        rwa [show k + (j + 1) = k + 1 + j by omega] at this
      have hf : shutdownWins (k + 1 + m) = true := by
        rwa [show k + (m + 1) = k + 1 + m by omega] at hfire
      rw [ih f (k + 1) hb hf (by omega), completedCycles, List.append_assoc]

theorem completedCycles_mem_process (fetchResult : Nat → Option (List Email)) :
    ∀ (m k j : Nat), k ≤ j → j < k + m →
      ∀ (batch : List Email), fetchResult j = some batch →
      ∀ e ∈ batch,
        LoopEvent.processMsg j e.id ∈ completedCycles fetchResult k m := by
  intro m
  induction m with
  | zero => intro k j h1 h2 _ _ _ _; omega
  | succ m ih =>
      intro k j h1 h2 batch hb e he
      rw [completedCycles]
      rcases Nat.eq_or_lt_of_le h1 with rfl | hlt
      · apply List.mem_append_left
        rw [hb, cycleEvents]
        exact List.mem_cons_of_mem _ (List.mem_map.mpr ⟨e, he, rfl⟩)
      · exact List.mem_append_right _ (ih (k + 1) j hlt (by omega) batch hb e he)

/-- C8: the shutdown signal is observed only at the wait point of the
`select!`: if shutdown wins the race for the first time before iteration `m`,
the loop's whole event trace consists of `m` complete cycles — every message
of every fetched batch processed to completion — followed by `stopped`.  In
particular a signal that fires during fetching or processing never aborts
that cycle. -/
theorem c8_shutdown_only_at_wait_point (shutdownWins : Nat → Bool)
    (fetchResult : Nat → Option (List Email)) (m fuel : Nat)
    (hbefore : ∀ j, j < m → shutdownWins j = false)
    (hfire : shutdownWins m = true) (hfuel : m < fuel) :
    runReceiverLoop shutdownWins fetchResult fuel 0
      = completedCycles fetchResult 0 m ++ [LoopEvent.stopped]
    ∧ ∀ j, j < m → ∀ batch, fetchResult j = some batch →
        ∀ e ∈ batch, LoopEvent.processMsg j e.id
          ∈ completedCycles fetchResult 0 m := by
  constructor
  · exact runReceiverLoop_complete shutdownWins fetchResult m fuel 0
      (fun j hj => by simpa using hbefore j hj) (by simpa using hfire) hfuel
  · intro j hj batch hb e he
    exact completedCycles_mem_process fetchResult m 0 j (Nat.zero_le j)
      (by omega) batch hb e he

theorem c8_shutdown_witness :
    ((∀ j, j < 1 → (fun k => decide (k = 1)) j = false)
      ∧ (fun k => decide (k = 1)) 1 = true ∧ 1 < 2)
    ∧ (runReceiverLoop (fun k => decide (k = 1))
          (fun _ => some [(⟨"x", [1]⟩ : Email), ⟨"y", [2]⟩, ⟨"z", [3]⟩]) 2 0
        = completedCycles
            (fun _ => some [(⟨"x", [1]⟩ : Email), ⟨"y", [2]⟩, ⟨"z", [3]⟩]) 0 1
          ++ [LoopEvent.stopped]
      ∧ ∀ j, j < 1 → ∀ batch,
          (fun _ => some [(⟨"x", [1]⟩ : Email), ⟨"y", [2]⟩, ⟨"z", [3]⟩]) j
            = some batch →
          ∀ e ∈ batch, LoopEvent.processMsg j e.id
            ∈ completedCycles
                (fun _ => some [(⟨"x", [1]⟩ : Email), ⟨"y", [2]⟩, ⟨"z", [3]⟩])
                0 1) :=
  ⟨⟨fun j hj => by interval_cases j; rfl, rfl, by decide⟩,
    c8_shutdown_only_at_wait_point (fun k => decide (k = 1))
      (fun _ => some [⟨"x", [1]⟩, ⟨"y", [2]⟩, ⟨"z", [3]⟩]) 1 2
      (fun j hj => by interval_cases j; rfl) rfl (by decide)⟩

end MailForwarder
